import Mathlib

/-!
Verification of the EigenTrust protocol core against its source.

Shallow embedding conventions used throughout this development:
* The BN254 scalar field `Fr` (modulus `qBn`) is embedded as `Fin qBn`;
  `Fr::to_bytes`/`Fr::from_bytes` are the canonical 32-byte little-endian
  encoding and its partial inverse (failing on non-canonical inputs).
* `f64` values are embedded as exact rationals.  Finite-value rounding
  drift is not modelled; the non-finite results of dividing by zero
  (NaN or an infinity) are modelled as `none` in the `F64 := Option ℚ`
  model used by the peer trust module.  `f64::round` (round half away
  from zero) is `roundAway`.
* Rust `as u128` float-to-integer casts saturate: negative values clamp
  to 0 and values above `2^128 - 1` clamp to the maximum (`castU128`).
  `u128` addition and multiplication wrap modulo `2^128` (release-profile
  semantics, written as an explicit `% 2^128`; with debug assertions the
  source panics on overflow instead, so theorems about these operations
  carry hypotheses confining them to the overflow-free domain on which
  the two profiles agree).
* Fallible Rust functions return `Except`/`Option`; a panic
  (`unwrap`, out-of-bounds slice, overflow with debug assertions,
  failed `assert!`) is modelled as `none` in an outer `Option`.
* The Poseidon permutation, the proving backend and the verifying
  backend are external collaborators of the core (their implementations
  are not part of the analysed sources); they are taken as function
  parameters, exactly matching the interfaces they present to the core:
  `permute : State5 → State5`, `prove` producing proof bytes or an
  error, `verify` producing a boolean or an error.  The bootstrap
  configuration constants (decoded bootstrap public keys, bootstrap
  score) are likewise configuration parameters of the engine.
-/

/-- Modulus of the BN254 (bn256) scalar field `Fr`, used by every crate in
the repository (`halo2wrong::curves::bn256::Fr` and
`eigentrust_zk::halo2::halo2curves::bn256::Fr` are the same field). -/
def qBn : ℕ := 21888242871839275222246405745257275088548364400416034343698204186575808495617

/-- A BN254 scalar field element (`Bn256Scalar` in the source). -/
def Bn256Scalar := Fin qBn

instance : DecidableEq Bn256Scalar := instDecidableEqFin qBn

/-- `Bn256Scalar::from_u128` / `Bn256Scalar::from`: reduce a natural number
into the field.  (For arguments below `2^128` — the only ones the code
produces — the reduction is the identity, since `2^128 < qBn`.) -/
def Bn256Scalar.ofNat (n : ℕ) : Bn256Scalar := ⟨n % qBn, Nat.mod_lt _ (by decide)⟩

/-- `Bn256Scalar::zero()`. -/
def Bn256Scalar.zeroS : Bn256Scalar := ⟨0, by decide⟩

/-- Little-endian base-256 digits of `n`, padded/truncated to `k` bytes. -/
def natToBytesLE : ℕ → ℕ → List ℕ
  | 0, _ => []
  | k + 1, n => n % 256 :: natToBytesLE k (n / 256)

/-- The natural number denoted by a little-endian byte list. -/
def bytesToNatLE : List ℕ → ℕ
  | [] => 0
  | b :: bs => b + 256 * bytesToNatLE bs

/-- `Fr::to_bytes`: the canonical 32-byte little-endian encoding. -/
def Bn256Scalar.toBytes (s : Bn256Scalar) : List ℕ := natToBytesLE 32 s.val

/-- `Fr::from_bytes`: decode 32 little-endian bytes, failing (returning a
`CtOption` with `is_some = false`, modelled as `none`) when the encoded
value is not canonical, i.e. not below the field modulus. -/
def Bn256Scalar.fromBytes (bs : List ℕ) : Option Bn256Scalar :=
  if h : bs.length = 32 ∧ bytesToNatLE bs < qBn then some ⟨bytesToNatLE bs, h.2⟩ else none

/-- `SCALE` from `src/protocol/src/manager/ivp.rs`: the fixed-point scale. -/
def SCALE : ℚ := 100000000

/-- `f64::round`: round to the nearest integer, halves away from zero. -/
def roundAway (q : ℚ) : ℤ := if 0 ≤ q then ⌊q + 1 / 2⌋ else ⌈q - 1 / 2⌉

/-- Rust's saturating `as u128` cast from a (here already rounded, hence
integral) float: negative values clamp to `0`, values above the maximum
clamp to `2^128 - 1`. -/
def castU128 (z : ℤ) : ℕ := min z.toNat (2 ^ 128 - 1)

/-- `(x * SCALE).round() as u128`, the scaling step of `IVP::generate`. -/
def scaleToU128 (x : ℚ) : ℕ := castU128 (roundAway (x * SCALE))

/-- `Epoch` from `src/src/epoch.rs`: a wrapper over a `u64` counter. -/
structure Epoch where
  val : ℕ
deriving DecidableEq, Repr

/-- `Epoch::next` (`Epoch(self.0 + 1)`) under release-profile `u64`
semantics: addition wraps modulo `2^64`. -/
def Epoch.next (e : Epoch) : Epoch := ⟨(e.val + 1) % 2 ^ 64⟩

/-- `Epoch::previous` (`Epoch(self.0 - 1)`) under release-profile `u64`
semantics: subtraction wraps modulo `2^64`. -/
def Epoch.previous (e : Epoch) : Epoch := ⟨(e.val + (2 ^ 64 - 1)) % 2 ^ 64⟩

/-- `Epoch::next` under checked (debug-profile) `u64` semantics: `none`
models the arithmetic-overflow panic. -/
def Epoch.nextChecked (e : Epoch) : Option Epoch :=
  if e.val + 1 < 2 ^ 64 then some ⟨e.val + 1⟩ else none

/-- `Epoch::previous` under checked (debug-profile) `u64` semantics:
`none` models the arithmetic-underflow panic of `self.0 - 1`. -/
def Epoch.previousChecked (e : Epoch) : Option Epoch :=
  if 1 ≤ e.val then some ⟨e.val - 1⟩ else none

/-- The `EigenError` enumeration of the repository. -/
inductive EigenError where
  | MaxNeighboursReached
  | NeighbourNotFound
  | OpinionNotFound
  | EpochError
  | ProvingError
  | VerificationError
  | InvalidBootstrapPubkey
deriving DecidableEq, Repr

/-- The model of an `f64` value in the peer trust module: `some q` is the
finite value `q` held exactly; `none` is any non-finite value (NaN or an
infinity), which is what `f64` division by a zero divisor produces. -/
abbrev F64 := Option ℚ

/-- `f64` addition (finite inputs assumed exact; non-finite absorbs). -/
def fAdd : F64 → F64 → F64
  | some a, some b => some (a + b)
  | _, _ => none

/-- `f64` subtraction. -/
def fSub : F64 → F64 → F64
  | some a, some b => some (a - b)
  | _, _ => none

/-- `f64` multiplication. -/
def fMul : F64 → F64 → F64
  | some a, some b => some (a * b)
  | _, _ => none

/-- `f64` division: a zero divisor yields NaN (`0.0/0.0`) or an infinity
(`x/0.0`), in either case a non-finite value, modelled as `none`. -/
def fDiv : F64 → F64 → F64
  | some a, some b => if b = 0 then none else some (a / b)
  | _, _ => none

/-- `Opinion` from `src/eigen-trust/src/peer.rs`. -/
structure Opinion where
  k : Epoch
  localTrustScore : F64
  globalTrustScore : F64
  product : F64
deriving DecidableEq, Repr

/-- `Opinion::empty`: the default opinion for unknown (peer, epoch) keys. -/
def Opinion.empty (k : Epoch) : Opinion := ⟨k, some 0, some 0, some 0⟩

/-- `Peer` from `src/eigen-trust/src/peer.rs`.  `PeerId` is opaque to the
trust logic and embedded as `ℕ`; the two `HashMap` caches are embedded as
lookup functions (the code only ever gets and inserts single keys). -/
structure Peer where
  neighborScores : ℕ → Option ℕ
  neighbors : List (Option ℕ)
  cachedNeighborOpinion : ℕ × Epoch → Option Opinion
  cachedLocalOpinion : ℕ × Epoch → Option Opinion
  preTrustScore : F64
  preTrustWeight : F64

/-- `Peer::neighbors()`: the currently occupied slots. -/
def Peer.neighborsList (p : Peer) : List ℕ := p.neighbors.filterMap id

/-- The `position(|x| x.is_none())` + `self.neighbors[index] = Some(id)`
pair of `Peer::add_neighbor`: replace the first `None` slot, or report
that no slot is free. -/
def setFirstFree : List (Option ℕ) → ℕ → Option (List (Option ℕ))
  | [], _ => none
  | none :: rest, id => some (some id :: rest)
  | some x :: rest, id => (setFirstFree rest id).map (some x :: ·)

/-- `Peer::add_neighbor` from `src/eigen-trust/src/peer.rs`. -/
def Peer.addNeighbor (p : Peer) (id : ℕ) : Except EigenError Peer :=
  if some id ∈ p.neighbors then .ok p
  else
    match setFirstFree p.neighbors id with
    | some ns => .ok { p with neighbors := ns }
    | none => .error .MaxNeighboursReached

/-- `Peer::get_neighbor_opinion`: cached value or the empty opinion. -/
def Peer.getNeighborOpinion (p : Peer) (key : ℕ × Epoch) : Opinion :=
  (p.cachedNeighborOpinion key).getD (Opinion.empty key.2)

/-- `Peer::get_local_opinion`: cached value or the empty opinion. -/
def Peer.getLocalOpinion (p : Peer) (key : ℕ × Epoch) : Opinion :=
  (p.cachedLocalOpinion key).getD (Opinion.empty key.2)

/-- `Peer::get_sum_of_scores`: sum of the ratings of current neighbors
(absent map entries count as 0, mirroring `unwrap_or(&0)`). -/
def Peer.getSumOfScores (p : Peer) : ℕ :=
  (p.neighborsList.map (fun n => (p.neighborScores n).getD 0)).sum

/-- `Peer::get_normalized_score`: `f64::from(score) / f64::from(sum)`.
When the sum is zero the `f64` quotient is NaN or infinity (`none`). -/
def Peer.getNormalizedScore (p : Peer) (score : ℕ) : F64 :=
  fDiv (some (score : ℚ)) (some (p.getSumOfScores : ℚ))

/-- `Peer::calculate_global_trust_score`. -/
def Peer.calculateGlobalTrustScore (p : Peer) (epoch : Epoch) : F64 :=
  let globalScore :=
    p.neighborsList.foldl
      (fun acc n => fAdd acc (p.getNeighborOpinion (n, epoch)).product) (some 0)
  fAdd (fMul (fSub (some 1) p.preTrustWeight) globalScore)
    (fMul p.preTrustWeight p.preTrustScore)

/-- `Peer::cache_local_opinion`: insert into the local-opinion map. -/
def Peer.cacheLocalOpinion (p : Peer) (key : ℕ × Epoch) (opinion : Opinion) : Peer :=
  { p with cachedLocalOpinion := fun k => if k = key then some opinion else p.cachedLocalOpinion k }

/-- `Peer::calculate_local_opinions`: build the opinion for every current
neighbor from the pre-call state, then cache each one under
`(neighbor, k.next())`. -/
def Peer.calculateLocalOpinions (p : Peer) (k : Epoch) : Peer :=
  let globalScore := p.calculateGlobalTrustScore k
  let opinions := p.neighborsList.map (fun peerId =>
    let score := (p.neighborScores peerId).getD 0
    let normalizedScore := p.getNormalizedScore score
    let product := fMul globalScore normalizedScore
    (peerId, Opinion.mk k.next normalizedScore globalScore product))
  opinions.foldl (fun q pr => q.cacheLocalOpinion (pr.1, pr.2.k) pr.2) p

/-- The width-5 Poseidon state `[Fr; 5]`. -/
def State5 := Bn256Scalar × Bn256Scalar × Bn256Scalar × Bn256Scalar × Bn256Scalar

/-- `permute(...)[0]`: the first element of a permutation output. -/
def State5.first (s : State5) : Bn256Scalar := s.1

/-- `IVP` from `src/protocol/src/manager/ivp.rs`: the proof message.
`m_hash` is a `[u8; 32]`, embedded as a byte list (all values the code
constructs have length 32). -/
structure IVP where
  epoch : Epoch
  iter : ℕ
  op : ℚ
  proofBytes : List ℕ
  mHash : List ℕ
deriving DecidableEq, Repr

/-- `IVP::generate` from `src/protocol/src/manager/ivp.rs`.

External collaborators are parameters: `permute` is the Poseidon
permutation; `proveFn` is `prove(params, circuit, [[m_hash]], pk, rng)`
with everything but the sole public input fixed by the closure (`none`
models `Err`, mapped to `EigenError::ProvingError`); `verifyFn` is
`verify(params, [[public_input]], proof_bytes, vk)` likewise.
`bootstrapPubkeys` is the base58-decoded `BOOTSTRAP_PEERS` constant and
`bootstrapScore` the `BOOTSTRAP_SCORE` constant (configuration from the
`constants` module, which is outside the analysed sources).  The outer
`Option` models the `assert!(proof_res)` panic (`none`).  The `u128` sum
`t_i_scaled` and product `op_v_scaled` wrap modulo `2^128` (release
semantics; with debug assertions the source panics there instead). -/
def IVP.generate (permute : State5 → State5) (proveFn : Bn256Scalar → Option (List ℕ))
    (verifyFn : Bn256Scalar → List ℕ → Option Bool) (bootstrapPubkeys : List Bn256Scalar)
    (bootstrapScore : ℚ) (sk : Bn256Scalar) (pkV : Bn256Scalar) (epoch : Epoch) (k : ℕ)
    (opJi : List ℚ) (cV : ℚ) : Option (Except EigenError IVP) :=
  let pkP := (permute (Bn256Scalar.zeroS, Bn256Scalar.zeroS, Bn256Scalar.zeroS,
    Bn256Scalar.zeroS, sk)).first
  let bootstrapScoreScaled := scaleToU128 bootstrapScore
  let opJiScaled := opJi.map scaleToU128
  let cVScaled := scaleToU128 cV
  let tIScaled : ℕ := opJiScaled.sum % 2 ^ 128
  let isBootstrap := pkP ∈ bootstrapPubkeys
  let isFirstIter := k = 0
  let tIFinal := if isBootstrap ∧ isFirstIter then bootstrapScoreScaled else tIScaled
  let opVScaled : ℕ := tIFinal * cVScaled % 2 ^ 128
  let opVUnscaled := (opVScaled : ℚ) / (SCALE * SCALE)
  let opVF := Bn256Scalar.ofNat opVScaled
  let epochF := Bn256Scalar.ofNat epoch.val
  let iterF := Bn256Scalar.ofNat k
  let mHash := (permute (epochF, iterF, opVF, pkV, pkP)).first
  match proveFn mHash with
  | none => some (.error .ProvingError)
  | some proofBytes =>
    match verifyFn mHash proofBytes with
    | none => some (.error .VerificationError)
    | some proofRes =>
      if proofRes then some (.ok ⟨epoch, k, opVUnscaled, proofBytes, mHash.toBytes⟩)
      else none

/-- `IVP::verify` from `src/protocol/src/manager/ivp.rs`.

`verifyFn` is the external `verify(params, [[public_input]], proof, vk)`
backend with params and key fixed by the closure; its `none` models a
backend `Err`, surfaced as `EigenError::VerificationError`.  The outer
`Option` is `none` exactly when the function panics, which happens on
the unconditional `Bn256Scalar::from_bytes(&self.m_hash).unwrap()`. -/
def IVP.verify (permute : State5 → State5) (verifyFn : Bn256Scalar → List ℕ → Option Bool)
    (m : IVP) (skP : Bn256Scalar) (pubkeyP : Bn256Scalar) :
    Option (Except EigenError Bool) :=
  let pkV := (permute (Bn256Scalar.zeroS, Bn256Scalar.zeroS, Bn256Scalar.zeroS,
    Bn256Scalar.zeroS, skP)).first
  let opVScaled := castU128 (roundAway (m.op * SCALE * SCALE))
  let epochF := Bn256Scalar.ofNat m.epoch.val
  let iterF := Bn256Scalar.ofNat m.iter
  let opVF := Bn256Scalar.ofNat opVScaled
  let mHash := (permute (epochF, iterF, opVF, pkV, pubkeyP)).first
  match Bn256Scalar.fromBytes m.mHash with
  | none => none
  | some mHashPassed =>
    let finalHash := if opVF = Bn256Scalar.zeroS then mHashPassed else mHash
    match verifyFn finalHash m.proofBytes with
    | none => some (.error .VerificationError)
    | some proofRes => some (.ok proofRes)

/-- `ETPublicInputs` from `src/eigentrust/src/circuit.rs`. -/
structure ETPublicInputs where
  participants : List Bn256Scalar
  scores : List Bn256Scalar
  domain : Bn256Scalar
  opinionHash : Bn256Scalar
deriving DecidableEq

/-- `ETPublicInputs::to_bytes`: participants, then scores, then domain,
then opinion hash, each as its canonical 32-byte encoding. -/
def ETPublicInputs.toBytes (x : ETPublicInputs) : List ℕ :=
  (x.participants.map Bn256Scalar.toBytes).flatten ++ (x.scores.map Bn256Scalar.toBytes).flatten ++
    Bn256Scalar.toBytes x.domain ++ Bn256Scalar.toBytes x.opinionHash

/-- The 32-byte chunk at scalar index `i` of a byte buffer
(`&bytes[32*i .. 32*i+32]`). -/
def chunkAt (bytes : List ℕ) (i : ℕ) : List ℕ := (bytes.drop (32 * i)).take 32

/-- The 32-byte chunk at index `i` is a canonical field encoding. -/
def chunkOK (bytes : List ℕ) (i : ℕ) : Prop := bytesToNatLE (chunkAt bytes i) < qBn

instance (bytes : List ℕ) (i : ℕ) : Decidable (chunkOK bytes i) :=
  Nat.decLt _ _

/-- `ETPublicInputs::get_scalar_at`: slice 32 bytes starting at `32*i`
(panicking — `none` — when the range exceeds the buffer, as Rust slice
indexing does) and decode them, failing on a non-canonical encoding. -/
def ETPublicInputs.getScalarAt (bytes : List ℕ) (i : ℕ) :
    Option (Except String Bn256Scalar) :=
  if 32 * i + 32 ≤ bytes.length then
    match Bn256Scalar.fromBytes (chunkAt bytes i) with
    | some s => some (.ok s)
    | none => some (.error "Failed to construct scalar from bytes")
  else none

/-- The `map(get_scalar_at).collect::<Result<Vec<_>, _>>()` pattern over a
list of scalar indices: stops at the first error (the iterator is lazy,
so indices after an error are not touched); a panic propagates. -/
def getScalars (bytes : List ℕ) : List ℕ → Option (Except String (List Bn256Scalar))
  | [] => some (.ok [])
  | i :: rest =>
    match ETPublicInputs.getScalarAt bytes i with
    | none => none
    | some (.error e) => some (.error e)
    | some (.ok s) =>
      match getScalars bytes rest with
      | none => none
      | some (.error e) => some (.error e)
      | some (.ok ss) => some (.ok (s :: ss))

/-- `ETPublicInputs::from_bytes`: length check, then participants
(indices `0..P`), scores (indices `P..2P`), domain (`2P`) and opinion
hash (`2P+1`). -/
def ETPublicInputs.fromBytes (bytes : List ℕ) (participants : ℕ) :
    Option (Except String ETPublicInputs) :=
  if bytes.length ≠ (2 * participants + 2) * 32 then some (.error "Invalid bytes length.")
  else
    match getScalars bytes (List.range participants) with
    | none => none
    | some (.error e) => some (.error e)
    | some (.ok ps) =>
      match getScalars bytes (List.range' participants participants) with
      | none => none
      | some (.error e) => some (.error e)
      | some (.ok ss) =>
        match ETPublicInputs.getScalarAt bytes (2 * participants) with
        | none => none
        | some (.error e) => some (.error e)
        | some (.ok d) =>
          match ETPublicInputs.getScalarAt bytes (2 * participants + 1) with
          | none => none
          | some (.error e) => some (.error e)
          | some (.ok oh) => some (.ok ⟨ps, ss, d, oh⟩)

/-- A concrete peer used to exercise the trust-score theorems: two
neighbors (ids 1 and 2, one free slot), neighbor 1 rated 4, a cached
opinion from neighbor 1 at epoch 0, none from neighbor 2. -/
def pConcrete : Peer where
  neighborScores := fun n => if n = 1 then some 4 else none
  neighbors := [some 1, some 2, none]
  cachedNeighborOpinion := fun key =>
    if key = (1, ⟨0⟩) then some ⟨⟨0⟩, some (1 / 10), some (1 / 10), some (1 / 100)⟩ else none
  cachedLocalOpinion := fun _ => none
  preTrustScore := some (1 / 2)
  preTrustWeight := some (1 / 2)

/-- A concrete peer with one neighbor and an all-zero rating table: the
rating sum is 0, the division-by-zero case of normalization. -/
def pZeroSum : Peer where
  neighborScores := fun _ => none
  neighbors := [some 0]
  cachedNeighborOpinion := fun _ => none
  cachedLocalOpinion := fun _ => none
  preTrustScore := some (1 / 2)
  preTrustWeight := some (1 / 2)

/-- A concrete permutation instance (the identity) used to exercise the
IVP theorems, which hold for every permutation. -/
def permId : State5 → State5 := fun s => s

/-- A concrete proving backend that always returns the proof `[0]`. -/
def proveConst : Bn256Scalar → Option (List ℕ) := fun _ => some [0]

/-- A concrete verifying backend that always answers `true`. -/
def verifyTrue : Bn256Scalar → List ℕ → Option Bool := fun _ _ => some true

/-- A concrete received IVP message with a canonical `m_hash` (the
encoding of the field element 5). -/
def mVerify : IVP := ⟨⟨3⟩, 1, 1 / 2, [9], natToBytesLE 32 5⟩

/-- The message `IVP::generate` produces for the concrete instance
`epoch = 7`, `k = 0`, `op_ji = [1/2]`, `c_v = 1/4`, no bootstrap keys:
`t_i = 50000000`, `c_v_scaled = 25000000`, opinion
`1250000000000000 / 10^16 = 1/8`. -/
def mGen : IVP := ⟨⟨7⟩, 0, 1 / 8, [0], Bn256Scalar.toBytes (Bn256Scalar.ofNat 7)⟩

/-- A concrete public-input vector with one participant. -/
def xConcrete : ETPublicInputs :=
  ⟨[Bn256Scalar.ofNat 1], [Bn256Scalar.ofNat 2], Bn256Scalar.ofNat 3, Bn256Scalar.ofNat 4⟩

lemma setFirstFree_eq_none_iff (l : List (Option ℕ)) (id : ℕ) :
    setFirstFree l id = none ↔ none ∉ l := by
  induction l with
  | nil => simp [setFirstFree]
  | cons a rest ih =>
    cases a with
    | none => simp [setFirstFree]
    | some x => simp [setFirstFree, Option.map_eq_none', ih]

lemma setFirstFree_eq_some (l : List (Option ℕ)) (id : ℕ) (l' : List (Option ℕ))
    (h : setFirstFree l id = some l') :
    ∃ pre post, l = pre ++ none :: post ∧ (∀ x ∈ pre, x ≠ none) ∧
      l' = pre ++ some id :: post := by
  induction l generalizing l' with
  | nil => simp [setFirstFree] at h
  | cons a rest ih =>
    cases a with
    | none =>
      refine ⟨[], rest, rfl, by simp, ?_⟩
      simp [setFirstFree] at h
      simp [← h]
    | some x =>
      simp only [setFirstFree, Option.map_eq_some'] at h
      obtain ⟨l'', h1, h2⟩ := h
      obtain ⟨pre, post, hl, hpre, hl'⟩ := ih l'' h1
      exact ⟨some x :: pre, post, by simp [hl], by simpa using hpre, by simp [← h2, hl']⟩

/-- Claim C8: `Peer::add_neighbor` is a successful no-op when the id is
already present; it fails with `MaxNeighboursReached` exactly when the
table has no free slot and the id is new; otherwise it inserts the id
into the first free slot. -/
theorem peer_add_neighbor_spec (p : Peer) (id : ℕ) :
    (some id ∈ p.neighbors → p.addNeighbor id = .ok p) ∧
    (p.addNeighbor id = .error .MaxNeighboursReached ↔
      some id ∉ p.neighbors ∧ none ∉ p.neighbors) ∧
    (some id ∉ p.neighbors → none ∈ p.neighbors →
      ∃ pre post, p.neighbors = pre ++ none :: post ∧ (∀ x ∈ pre, x ≠ none) ∧
        p.addNeighbor id = .ok { p with neighbors := pre ++ some id :: post }) := by
  refine ⟨?_, ?_, ?_⟩
  · intro h
    simp [Peer.addNeighbor, h]
  · constructor
    · intro h
      by_cases hmem : some id ∈ p.neighbors
      · simp [Peer.addNeighbor, hmem] at h
      · refine ⟨hmem, ?_⟩
        rw [← setFirstFree_eq_none_iff p.neighbors id]
        cases hs : setFirstFree p.neighbors id with
        | none => rfl
        | some ns => simp [Peer.addNeighbor, hmem, hs] at h
    · rintro ⟨hmem, hfree⟩
      have hs : setFirstFree p.neighbors id = none :=
        (setFirstFree_eq_none_iff p.neighbors id).mpr hfree
      simp [Peer.addNeighbor, hmem, hs]
  · intro hmem hfree
    cases hs : setFirstFree p.neighbors id with
    | none => exact absurd ((setFirstFree_eq_none_iff p.neighbors id).mp hs) (by simp [hfree])
    | some ns =>
      obtain ⟨pre, post, hl, hpre, hns⟩ := setFirstFree_eq_some p.neighbors id ns hs
      exact ⟨pre, post, hl, hpre, by simp [Peer.addNeighbor, hmem, hs, hns]⟩

/-- Claim C8 witness: adding the already-present id 1 to the concrete
peer succeeds and leaves the peer unchanged. -/
theorem peer_add_neighbor_spec_witness : pConcrete.addNeighbor 1 = .ok pConcrete :=
  (peer_add_neighbor_spec pConcrete 1).1 (by decide)

/-- Claim C5: the code evaluated at the failing input.  For a peer whose
neighbor ratings sum to 0, `get_normalized_score` computes the `f64`
quotient `0.0 / 0.0`, a NaN (modelled as `none`), not the value 0 the
specification prescribes. -/
theorem normalized_score_nan_at_zero_sum :
    pZeroSum.getSumOfScores = 0 ∧ pZeroSum.getNormalizedScore 0 = none := by
  decide

/-- Claim C10: `IVP::verify` panics — for any permutation, backend and
keys — exactly when the 32-byte `m_hash` carried in the message is not a
canonical field encoding, because it unconditionally unwraps the decoding
of `m_hash` before the zero-opinion check. -/
theorem ivp_verify_panic_iff_noncanonical_mhash (permute : State5 → State5)
    (verifyFn : Bn256Scalar → List ℕ → Option Bool) (m : IVP) (skP pubkeyP : Bn256Scalar) :
    IVP.verify permute verifyFn m skP pubkeyP = none ↔
      Bn256Scalar.fromBytes m.mHash = none := by
  unfold IVP.verify
  cases h : Bn256Scalar.fromBytes m.mHash with
  | none => simp [h]
  | some v =>
    simp only [h]
    cases verifyFn (if Bn256Scalar.ofNat (castU128 (roundAway (m.op * SCALE * SCALE))) =
        Bn256Scalar.zeroS then v
      else (permute (Bn256Scalar.ofNat m.epoch.val, Bn256Scalar.ofNat m.iter,
        Bn256Scalar.ofNat (castU128 (roundAway (m.op * SCALE * SCALE))),
        (permute (Bn256Scalar.zeroS, Bn256Scalar.zeroS, Bn256Scalar.zeroS,
          Bn256Scalar.zeroS, skP)).first, pubkeyP)).first) m.proofBytes <;> simp

/-- Claim C9 counterexample: at `Epoch(0)` the `u64` subtraction in
`Epoch::previous` underflows — it panics under overflow checks (checked
model: `none`) and wraps to `2^64 - 1` in release — so `previous` is not
defined as `Epoch(e.0 - 1)` at every epoch value. -/
theorem epoch_previous_zero_underflows :
    Epoch.previousChecked ⟨0⟩ = none ∧ Epoch.previous ⟨0⟩ = ⟨2 ^ 64 - 1⟩ := by
  constructor
  · rfl
  · show Epoch.mk ((0 + (2 ^ 64 - 1)) % 2 ^ 64) = ⟨2 ^ 64 - 1⟩
    norm_num

/-- Claim C9 (amended): `next` returns `Epoch(e.0 + 1)` whenever the
counter is below `u64::MAX`, and `previous` returns `Epoch(e.0 - 1)`
whenever the counter is positive; at `Epoch(0)`, `previous` underflows
instead of returning. -/
theorem epoch_next_previous (e : Epoch) :
    (e.val + 1 < 2 ^ 64 → Epoch.nextChecked e = some ⟨e.val + 1⟩ ∧
      Epoch.next e = ⟨e.val + 1⟩) ∧
    (1 ≤ e.val → e.val < 2 ^ 64 → Epoch.previousChecked e = some ⟨e.val - 1⟩ ∧
      Epoch.previous e = ⟨e.val - 1⟩) ∧
    (e.val = 0 → Epoch.previousChecked e = none) := by
  refine ⟨fun h => ⟨?_, ?_⟩, fun h1 h2 => ⟨?_, ?_⟩, fun h0 => ?_⟩
  · unfold Epoch.nextChecked
    rw [if_pos h]
  · simp only [Epoch.next, Epoch.mk.injEq]
    omega
  · unfold Epoch.previousChecked
    rw [if_pos h1]
  · simp only [Epoch.previous, Epoch.mk.injEq]
    omega
  · unfold Epoch.previousChecked
    rw [if_neg (by omega)]

/-- Claim C9 witness: the amended statement at `Epoch(5)`. -/
theorem epoch_next_previous_witness :
    Epoch.nextChecked ⟨5⟩ = some ⟨6⟩ ∧ Epoch.next ⟨5⟩ = ⟨6⟩ ∧
      Epoch.previousChecked ⟨5⟩ = some ⟨4⟩ ∧ Epoch.previous ⟨5⟩ = ⟨4⟩ := by
  have h := epoch_next_previous ⟨5⟩
  have h1 := h.1 (by norm_num)
  have h2 := h.2.1 (by norm_num) (by norm_num)
  exact ⟨h1.1, h1.2, h2.1, h2.2⟩

lemma foldl_fAdd_eq_sum (f : ℕ → F64) (l : List ℕ) (a : ℚ)
    (h : ∀ n ∈ l, f n ≠ none) :
    l.foldl (fun acc n => fAdd acc (f n)) (some a) =
      some (a + (l.map (fun n => (f n).getD 0)).sum) := by
  induction l generalizing a with
  | nil => simp
  | cons x xs ih =>
    obtain ⟨q, hq⟩ : ∃ q, f x = some q := by
      cases hfx : f x with
      | none => exact absurd hfx (h x (by simp))
      | some q => exact ⟨q, rfl⟩
    rw [List.foldl_cons, List.map_cons, List.sum_cons, hq]
    show List.foldl (fun acc n => fAdd acc (f n)) (some (a + q)) xs = _
    rw [ih (a + q) (fun n hn => h n (by simp [hn]))]
    simp only [Option.getD_some, Option.some.injEq]
    ring

/-- Claim C3: the global trust score is
`(1 - w) * Σ neighbor products + w * pretrust`, a missing cached opinion
contributing the empty opinion's product 0; with no cached neighbor
opinions at all it is exactly `w * pretrust`. -/
theorem peer_global_trust_score (p : Peer) (e : Epoch) (w s : ℚ)
    (hw : p.preTrustWeight = some w) (hs : p.preTrustScore = some s)
    (hfin : ∀ n ∈ p.neighborsList, (p.getNeighborOpinion (n, e)).product ≠ none) :
    p.calculateGlobalTrustScore e =
      some ((1 - w) *
        (p.neighborsList.map (fun n => ((p.getNeighborOpinion (n, e)).product).getD 0)).sum +
        w * s) ∧
    (p.cachedNeighborOpinion = (fun _ => none) →
      p.calculateGlobalTrustScore e = some (w * s)) := by
  have hmain : p.calculateGlobalTrustScore e =
      some ((1 - w) *
        (p.neighborsList.map (fun n => ((p.getNeighborOpinion (n, e)).product).getD 0)).sum +
        w * s) := by
    unfold Peer.calculateGlobalTrustScore
    rw [foldl_fAdd_eq_sum (fun n => (p.getNeighborOpinion (n, e)).product) p.neighborsList 0 hfin]
    simp only [hw, hs, fSub, fMul, fAdd, Option.some.injEq]
    ring
  refine ⟨hmain, fun hempty => ?_⟩
  rw [hmain]
  have hmap : (p.neighborsList.map
      (fun n => ((p.getNeighborOpinion (n, e)).product).getD 0)) =
      p.neighborsList.map (fun _ => (0 : ℚ)) := by
    refine List.map_congr_left (fun n _ => ?_)
    simp [Peer.getNeighborOpinion, hempty, Opinion.empty]
  rw [hmap]
  simp only [List.map_const', List.sum_replicate, smul_zero, Option.some.injEq]
  ring

/-- Claim C3 witness: the concrete peer's score at epoch 0 is
`(1 - 1/2) * (1/100 + 0) + (1/2) * (1/2) = 51/200`. -/
theorem peer_global_trust_score_witness :
    pConcrete.calculateGlobalTrustScore ⟨0⟩ = some (51 / 200) := by
  have h := (peer_global_trust_score pConcrete ⟨0⟩ (1 / 2) (1 / 2) rfl rfl (by decide)).1
  rw [h]
  with_unfolding_all rfl

lemma foldl_cache_keeps_other_keys (g : ℕ → Opinion) (l : List ℕ) (p : Peer) (n : ℕ)
    (e' : Epoch) (hn : n ∉ l) :
    ((l.map (fun x => (x, g x))).foldl
      (fun q pr => q.cacheLocalOpinion (pr.1, pr.2.k) pr.2) p).cachedLocalOpinion (n, e') =
      p.cachedLocalOpinion (n, e') := by
  induction l generalizing p with
  | nil => rfl
  | cons x xs ih =>
    have hx : n ≠ x := fun hc => hn (by simp [hc])
    rw [List.map_cons, List.foldl_cons, ih _ (fun hc => hn (by simp [hc]))]
    simp [Peer.cacheLocalOpinion, Prod.ext_iff, hx]

lemma foldl_cache_lookup (g : ℕ → Opinion) (l : List ℕ) (p : Peer) (n : ℕ) (e' : Epoch)
    (hk : ∀ x, (g x).k = e') (hn : n ∈ l) :
    ((l.map (fun x => (x, g x))).foldl
      (fun q pr => q.cacheLocalOpinion (pr.1, pr.2.k) pr.2) p).cachedLocalOpinion (n, e') =
      some (g n) := by
  induction l generalizing p with
  | nil => simp at hn
  | cons x xs ih =>
    rw [List.map_cons, List.foldl_cons]
    by_cases hmem : n ∈ xs
    · exact ih _ hmem
    · have hx : n = x := by
        rcases List.mem_cons.mp hn with h | h
        · exact h
        · exact absurd h hmem
      subst hx
      rw [foldl_cache_keeps_other_keys g xs _ n e' hmem]
      simp [Peer.cacheLocalOpinion, hk n]

/-- Claim C4: after `calculate_local_opinions(E)`, the local-opinion
cache at `(n, E.next())` holds exactly the opinion built from the
pre-call state: epoch `E.next()`, the neighbor's normalized score, the
pre-call global trust score, and their product. -/
theorem peer_local_opinions_cache (p : Peer) (e : Epoch) (n : ℕ)
    (hn : n ∈ p.neighborsList) :
    (p.calculateLocalOpinions e).getLocalOpinion (n, e.next) =
      Opinion.mk e.next (p.getNormalizedScore ((p.neighborScores n).getD 0))
        (p.calculateGlobalTrustScore e)
        (fMul (p.calculateGlobalTrustScore e)
          (p.getNormalizedScore ((p.neighborScores n).getD 0))) := by
  have h := foldl_cache_lookup
    (fun x => Opinion.mk e.next (p.getNormalizedScore ((p.neighborScores x).getD 0))
      (p.calculateGlobalTrustScore e)
      (fMul (p.calculateGlobalTrustScore e)
        (p.getNormalizedScore ((p.neighborScores x).getD 0))))
    p.neighborsList p n e.next (fun _ => rfl) hn
  have h2 : (p.calculateLocalOpinions e).cachedLocalOpinion (n, e.next) =
      some (Opinion.mk e.next (p.getNormalizedScore ((p.neighborScores n).getD 0))
        (p.calculateGlobalTrustScore e)
        (fMul (p.calculateGlobalTrustScore e)
          (p.getNormalizedScore ((p.neighborScores n).getD 0)))) := h
  unfold Peer.getLocalOpinion
  rw [h2]
  rfl

/-- Claim C4 witness: the cached opinion of the concrete peer's neighbor 1
after `calculate_local_opinions(Epoch(0))`. -/
theorem peer_local_opinions_cache_witness :
    (pConcrete.calculateLocalOpinions ⟨0⟩).getLocalOpinion (1, Epoch.next ⟨0⟩) =
      Opinion.mk (Epoch.next ⟨0⟩)
        (pConcrete.getNormalizedScore ((pConcrete.neighborScores 1).getD 0))
        (pConcrete.calculateGlobalTrustScore ⟨0⟩)
        (fMul (pConcrete.calculateGlobalTrustScore ⟨0⟩)
          (pConcrete.getNormalizedScore ((pConcrete.neighborScores 1).getD 0))) :=
  peer_local_opinions_cache pConcrete ⟨0⟩ 1 (by decide)

lemma castU128_of_lt (z : ℤ) (hz : z < 2 ^ 128) : castU128 z = z.toNat := by
  unfold castU128
  apply min_eq_left
  omega

lemma roundAway_nonneg (q : ℚ) (h : 0 ≤ q) : 0 ≤ roundAway q := by
  unfold roundAway
  rw [if_pos h]
  exact Int.le_floor.mpr (by push_cast; linarith)

lemma roundAway_lt_of_lt (q : ℚ) (h0 : 0 ≤ q) (h : q + 1 / 2 < ((2 : ℚ) ^ 128)) :
    roundAway q < 2 ^ 128 := by
  unfold roundAway
  rw [if_pos h0]
  exact Int.floor_lt.mpr (by push_cast; linarith)

lemma scaleToU128_eq_toNat (x : ℚ) (h0 : 0 ≤ x) (hbd : x * SCALE + 1 / 2 < 2 ^ 128) :
    scaleToU128 x = (roundAway (x * SCALE)).toNat := by
  unfold scaleToU128
  exact castU128_of_lt _ (roundAway_lt_of_lt _ (mul_nonneg h0 (by norm_num [SCALE])) (by linarith))

lemma qBn_large : 2 ^ 128 < qBn := by norm_num [qBn]

lemma ofNat_eq_zeroS_iff (n : ℕ) (hn : n < 2 ^ 128) :
    Bn256Scalar.ofNat n = Bn256Scalar.zeroS ↔ n = 0 := by
  unfold Bn256Scalar.ofNat Bn256Scalar.zeroS
  rw [Fin.mk.injEq, Nat.mod_eq_of_lt (lt_trans hn qBn_large)]

/-- Claim C2: for a message whose carried `m_hash` decodes canonically,
`IVP::verify` hands the external verifier a single public input: the
recomputed hash `permute([epoch, iter, op_v_scaled, pk_v, pubkey_p])[0]`
with `op_v_scaled = round(op * SCALE^2)` and `pk_v` derived from the
verifier's secret key — except that when the recovered scaled opinion is
exactly zero it hands over the carried `m_hash` verbatim; the backend's
answer is propagated (its error surfacing as `VerificationError`). -/
theorem ivp_verify_public_input (permute : State5 → State5)
    (verifyFn : Bn256Scalar → List ℕ → Option Bool) (m : IVP) (skP pubkeyP : Bn256Scalar)
    (h : Bn256Scalar) (hm : Bn256Scalar.fromBytes m.mHash = some h)
    (hop : 0 ≤ m.op) (hbd : m.op * SCALE * SCALE + 1 / 2 < 2 ^ 128) :
    IVP.verify permute verifyFn m skP pubkeyP =
      some (match verifyFn
          (if roundAway (m.op * SCALE * SCALE) = 0 then h
           else (permute (Bn256Scalar.ofNat m.epoch.val, Bn256Scalar.ofNat m.iter,
             Bn256Scalar.ofNat (roundAway (m.op * SCALE * SCALE)).toNat,
             (permute (Bn256Scalar.zeroS, Bn256Scalar.zeroS, Bn256Scalar.zeroS,
               Bn256Scalar.zeroS, skP)).first, pubkeyP)).first) m.proofBytes with
        | none => Except.error EigenError.VerificationError
        | some b => Except.ok b) := by
  have hmnn : 0 ≤ m.op * SCALE * SCALE :=
    mul_nonneg (mul_nonneg hop (by norm_num [SCALE])) (by norm_num [SCALE])
  have h0 : 0 ≤ roundAway (m.op * SCALE * SCALE) := roundAway_nonneg _ hmnn
  have hlt : roundAway (m.op * SCALE * SCALE) < 2 ^ 128 :=
    roundAway_lt_of_lt _ hmnn (by linarith)
  have hcast : castU128 (roundAway (m.op * SCALE * SCALE)) =
      (roundAway (m.op * SCALE * SCALE)).toNat := castU128_of_lt _ hlt
  have hcond : (Bn256Scalar.ofNat (roundAway (m.op * SCALE * SCALE)).toNat =
      Bn256Scalar.zeroS) ↔ roundAway (m.op * SCALE * SCALE) = 0 := by
    rw [ofNat_eq_zeroS_iff _ (by omega)]
    omega
  unfold IVP.verify
  simp only [hm, hcast]
  rw [if_congr hcond rfl rfl]
  cases verifyFn
      (if roundAway (m.op * SCALE * SCALE) = 0 then h
       else (permute (Bn256Scalar.ofNat m.epoch.val, Bn256Scalar.ofNat m.iter,
         Bn256Scalar.ofNat (roundAway (m.op * SCALE * SCALE)).toNat,
         (permute (Bn256Scalar.zeroS, Bn256Scalar.zeroS, Bn256Scalar.zeroS,
           Bn256Scalar.zeroS, skP)).first, pubkeyP)).first) m.proofBytes <;> rfl

/-- Claim C2 witness: the theorem at the concrete message `mVerify`
(opinion `1/2`, scaled opinion nonzero, so the recomputed hash is used). -/
theorem ivp_verify_public_input_witness :
    IVP.verify permId verifyTrue mVerify Bn256Scalar.zeroS Bn256Scalar.zeroS =
      some (match verifyTrue
          (if roundAway (mVerify.op * SCALE * SCALE) = 0 then Bn256Scalar.ofNat 5
           else (permId (Bn256Scalar.ofNat mVerify.epoch.val, Bn256Scalar.ofNat mVerify.iter,
             Bn256Scalar.ofNat (roundAway (mVerify.op * SCALE * SCALE)).toNat,
             (permId (Bn256Scalar.zeroS, Bn256Scalar.zeroS, Bn256Scalar.zeroS,
               Bn256Scalar.zeroS, Bn256Scalar.zeroS)).first, Bn256Scalar.zeroS)).first)
          mVerify.proofBytes with
        | none => Except.error EigenError.VerificationError
        | some b => Except.ok b) :=
  ivp_verify_public_input permId verifyTrue mVerify Bn256Scalar.zeroS Bn256Scalar.zeroS
    (Bn256Scalar.ofNat 5) (by with_unfolding_all rfl) (by norm_num [mVerify])
    (by norm_num [mVerify, SCALE])

lemma sum_scaleToU128_cast (opJi : List ℚ)
    (hops : ∀ op ∈ opJi, 0 ≤ op ∧ op * SCALE + 1 / 2 < 2 ^ 128) :
    (((opJi.map scaleToU128).sum : ℕ) : ℤ) =
      (opJi.map (fun op => roundAway (op * SCALE))).sum := by
  induction opJi with
  | nil => simp
  | cons x xs ih =>
    have hx := hops x (by simp)
    simp only [List.map_cons, List.sum_cons, Nat.cast_add]
    rw [ih (fun op hop => hops op (by simp [hop]))]
    rw [scaleToU128_eq_toNat x hx.1 hx.2,
      Int.toNat_of_nonneg (roundAway_nonneg _ (mul_nonneg hx.1 (by norm_num [SCALE])))]

/-- Claim C1: when `IVP::generate` returns a message, each input was
scaled by `round(value * SCALE)` (round half away from zero), the scaled
incoming opinions were summed, the sum replaced by the scaled bootstrap
score when the issuer's derived public commitment is a configured
bootstrap key and `k = 0`, and the message's `op` field is
`(t_i_final * round(c_v * SCALE)) / SCALE^2`.  The hypotheses confine
the inputs to the domain where the `u128` sum and product do not
overflow — outside it the source wraps (release) or panics (debug) and
the claimed formula is not what the program computes. -/
theorem ivp_generate_scaled_opinion (permute : State5 → State5)
    (proveFn : Bn256Scalar → Option (List ℕ))
    (verifyFn : Bn256Scalar → List ℕ → Option Bool) (bootstrapPubkeys : List Bn256Scalar)
    (bootstrapScore : ℚ) (sk pkV : Bn256Scalar) (epoch : Epoch) (k : ℕ) (opJi : List ℚ)
    (cV : ℚ) (m : IVP)
    (hops : ∀ op ∈ opJi, 0 ≤ op ∧ op * SCALE + 1 / 2 < 2 ^ 128)
    (hc : 0 ≤ cV ∧ cV * SCALE + 1 / 2 < 2 ^ 128)
    (hb : 0 ≤ bootstrapScore ∧ bootstrapScore * SCALE + 1 / 2 < 2 ^ 128)
    (hsum : (opJi.map (fun op => roundAway (op * SCALE))).sum < 2 ^ 128)
    (hprod : (if (permute (Bn256Scalar.zeroS, Bn256Scalar.zeroS, Bn256Scalar.zeroS,
          Bn256Scalar.zeroS, sk)).first ∈ bootstrapPubkeys ∧ k = 0
        then roundAway (bootstrapScore * SCALE)
        else (opJi.map (fun op => roundAway (op * SCALE))).sum) *
        roundAway (cV * SCALE) < 2 ^ 128)
    (hgen : IVP.generate permute proveFn verifyFn bootstrapPubkeys bootstrapScore sk pkV
      epoch k opJi cV = some (.ok m)) :
    m.epoch = epoch ∧ m.iter = k ∧
    m.op = (((if (permute (Bn256Scalar.zeroS, Bn256Scalar.zeroS, Bn256Scalar.zeroS,
          Bn256Scalar.zeroS, sk)).first ∈ bootstrapPubkeys ∧ k = 0
        then roundAway (bootstrapScore * SCALE)
        else (opJi.map (fun op => roundAway (op * SCALE))).sum) *
        roundAway (cV * SCALE) : ℤ) : ℚ) / (SCALE * SCALE) := by
  have hcZ : ((scaleToU128 cV : ℕ) : ℤ) = roundAway (cV * SCALE) := by
    rw [scaleToU128_eq_toNat cV hc.1 hc.2]
    exact Int.toNat_of_nonneg (roundAway_nonneg _ (mul_nonneg hc.1 (by norm_num [SCALE])))
  have hsumZ : (((opJi.map scaleToU128).sum : ℕ) : ℤ) =
      (opJi.map (fun op => roundAway (op * SCALE))).sum := sum_scaleToU128_cast opJi hops
  have hsumNat : (opJi.map scaleToU128).sum < 2 ^ 128 := by
    have h1 : (((opJi.map scaleToU128).sum : ℕ) : ℤ) < 2 ^ 128 := by
      rw [hsumZ]
      exact hsum
    exact_mod_cast h1
  simp only [IVP.generate] at hgen
  split at hgen
  · exact absurd hgen (by simp)
  · split at hgen
    · exact absurd hgen (by simp)
    · split at hgen
      · simp only [Option.some.injEq, Except.ok.injEq] at hgen
        subst hgen
        refine ⟨rfl, rfl, ?_⟩
        show (((if (permute (Bn256Scalar.zeroS, Bn256Scalar.zeroS, Bn256Scalar.zeroS,
            Bn256Scalar.zeroS, sk)).first ∈ bootstrapPubkeys ∧ k = 0
          then scaleToU128 bootstrapScore else (opJi.map scaleToU128).sum % 2 ^ 128) *
          scaleToU128 cV % 2 ^ 128 : ℕ) : ℚ) / (SCALE * SCALE) = _
        rw [Nat.mod_eq_of_lt hsumNat]
        have htZ : (((if (permute (Bn256Scalar.zeroS, Bn256Scalar.zeroS, Bn256Scalar.zeroS,
            Bn256Scalar.zeroS, sk)).first ∈ bootstrapPubkeys ∧ k = 0
          then scaleToU128 bootstrapScore else (opJi.map scaleToU128).sum : ℕ)) : ℤ) =
            (if (permute (Bn256Scalar.zeroS, Bn256Scalar.zeroS, Bn256Scalar.zeroS,
              Bn256Scalar.zeroS, sk)).first ∈ bootstrapPubkeys ∧ k = 0
            then roundAway (bootstrapScore * SCALE)
            else (opJi.map (fun op => roundAway (op * SCALE))).sum) := by
          split
          · rw [scaleToU128_eq_toNat bootstrapScore hb.1 hb.2]
            exact Int.toNat_of_nonneg
              (roundAway_nonneg _ (mul_nonneg hb.1 (by norm_num [SCALE])))
          · exact hsumZ
        have hmulZ : (((if (permute (Bn256Scalar.zeroS, Bn256Scalar.zeroS, Bn256Scalar.zeroS,
            Bn256Scalar.zeroS, sk)).first ∈ bootstrapPubkeys ∧ k = 0
          then scaleToU128 bootstrapScore else (opJi.map scaleToU128).sum) *
          scaleToU128 cV : ℕ) : ℤ) =
            (if (permute (Bn256Scalar.zeroS, Bn256Scalar.zeroS, Bn256Scalar.zeroS,
              Bn256Scalar.zeroS, sk)).first ∈ bootstrapPubkeys ∧ k = 0
            then roundAway (bootstrapScore * SCALE)
            else (opJi.map (fun op => roundAway (op * SCALE))).sum) *
            roundAway (cV * SCALE) := by
          rw [Nat.cast_mul, htZ, hcZ]
        have hprodNat : (if (permute (Bn256Scalar.zeroS, Bn256Scalar.zeroS, Bn256Scalar.zeroS,
            Bn256Scalar.zeroS, sk)).first ∈ bootstrapPubkeys ∧ k = 0
          then scaleToU128 bootstrapScore else (opJi.map scaleToU128).sum) *
            scaleToU128 cV < 2 ^ 128 := by
          have h1 : (((if (permute (Bn256Scalar.zeroS, Bn256Scalar.zeroS, Bn256Scalar.zeroS,
              Bn256Scalar.zeroS, sk)).first ∈ bootstrapPubkeys ∧ k = 0
            then scaleToU128 bootstrapScore else (opJi.map scaleToU128).sum) *
            scaleToU128 cV : ℕ) : ℤ) < 2 ^ 128 := by
            rw [hmulZ]
            exact hprod
          exact_mod_cast h1
        rw [Nat.mod_eq_of_lt hprodNat]
        congr 1
        have h2 := congrArg (fun z : ℤ => (z : ℚ)) hmulZ
        simpa using h2
      · exact absurd hgen (by simp)

/-- Claim C1 witness: the theorem at the concrete instance `epoch = 7`,
`k = 0`, `op_ji = [1/2]`, `c_v = 1/4`, no bootstrap keys (the scaled sum
is `50000000` and the scaled product `1250000000000000`, far below
`2^128`). -/
theorem ivp_generate_scaled_opinion_witness :
    mGen.epoch = ⟨7⟩ ∧ mGen.iter = 0 ∧
    mGen.op = (((if (permId (Bn256Scalar.zeroS, Bn256Scalar.zeroS, Bn256Scalar.zeroS,
          Bn256Scalar.zeroS, Bn256Scalar.zeroS)).first ∈ ([] : List Bn256Scalar) ∧ 0 = 0
        then roundAway (0 * SCALE)
        else (([1 / 2] : List ℚ).map (fun op => roundAway (op * SCALE))).sum) *
        roundAway (1 / 4 * SCALE) : ℤ) : ℚ) / (SCALE * SCALE) :=
  ivp_generate_scaled_opinion permId proveConst verifyTrue [] 0 Bn256Scalar.zeroS
    Bn256Scalar.zeroS ⟨7⟩ 0 [1 / 2] (1 / 4) mGen
    (by
      intro op hop
      rw [List.mem_singleton] at hop
      subst hop
      constructor <;> norm_num [SCALE])
    (by constructor <;> norm_num [SCALE])
    (by constructor <;> norm_num [SCALE])
    (by
      have hval : (([1 / 2] : List ℚ).map (fun op => roundAway (op * SCALE))).sum =
          50000000 := by
        with_unfolding_all rfl
      rw [hval]
      norm_num)
    (by
      have hval : (if (permId (Bn256Scalar.zeroS, Bn256Scalar.zeroS, Bn256Scalar.zeroS,
            Bn256Scalar.zeroS, Bn256Scalar.zeroS)).first ∈ ([] : List Bn256Scalar) ∧ 0 = 0
          then roundAway (0 * SCALE)
          else (([1 / 2] : List ℚ).map (fun op => roundAway (op * SCALE))).sum) *
          roundAway (1 / 4 * SCALE) = 1250000000000000 := by
        with_unfolding_all rfl
      rw [hval]
      norm_num)
    (by with_unfolding_all rfl)

lemma natToBytesLE_length (k n : ℕ) : (natToBytesLE k n).length = k := by
  induction k generalizing n with
  | zero => rfl
  | succ k ih => simp [natToBytesLE, ih]

lemma bytesToNatLE_natToBytesLE (k n : ℕ) (h : n < 256 ^ k) :
    bytesToNatLE (natToBytesLE k n) = n := by
  induction k generalizing n with
  | zero =>
    interval_cases n
    rfl
  | succ k ih =>
    have hdiv : n / 256 < 256 ^ k := by
      rw [Nat.div_lt_iff_lt_mul (by norm_num)]
      calc n < 256 ^ (k + 1) := h
      _ = 256 ^ k * 256 := by ring
    simp only [natToBytesLE, bytesToNatLE, ih (n / 256) hdiv]
    omega

lemma qBn_lt_byte32 : qBn < 256 ^ 32 := by norm_num [qBn]

lemma Bn256Scalar.toBytes_length (s : Bn256Scalar) : s.toBytes.length = 32 :=
  natToBytesLE_length 32 s.val

lemma Bn256Scalar.fromBytes_toBytes (s : Bn256Scalar) :
    Bn256Scalar.fromBytes s.toBytes = some s := by
  have hval : bytesToNatLE s.toBytes = s.val :=
    bytesToNatLE_natToBytesLE 32 s.val (lt_trans s.isLt qBn_lt_byte32)
  unfold Bn256Scalar.fromBytes
  rw [dif_pos ⟨Bn256Scalar.toBytes_length s, by rw [hval]; exact s.isLt⟩]
  simp only [Option.some.injEq]
  exact Fin.ext (by simpa using hval)

lemma flatten_map_toBytes_length (l : List Bn256Scalar) :
    ((l.map Bn256Scalar.toBytes).flatten).length = 32 * l.length := by
  induction l with
  | nil => rfl
  | cons a rest ih =>
    simp only [List.map_cons, List.flatten_cons, List.length_append, ih,
      Bn256Scalar.toBytes_length, List.length_cons]
    ring

lemma chunkAt_flatten_map (l : List Bn256Scalar) (i : ℕ) (hi : i < l.length) :
    chunkAt ((l.map Bn256Scalar.toBytes).flatten) i =
      Bn256Scalar.toBytes (l.getD i Bn256Scalar.zeroS) := by
  induction l generalizing i with
  | nil => simp at hi
  | cons a rest ih =>
    cases i with
    | zero =>
      show (((a.toBytes ++ (rest.map Bn256Scalar.toBytes).flatten).drop (32 * 0)).take 32) = _
      rw [Nat.mul_zero, List.drop_zero,
        List.take_left' (Bn256Scalar.toBytes_length a)]
      rfl
    | succ j =>
      show (((a.toBytes ++ (rest.map Bn256Scalar.toBytes).flatten).drop (32 * (j + 1))).take 32) = _
      rw [Nat.mul_succ, Nat.add_comm (32 * j) 32, ← List.drop_drop,
        List.drop_left' (Bn256Scalar.toBytes_length a)]
      exact ih j (by simpa using hi)

lemma getScalarAt_flatten_map (l : List Bn256Scalar) (i : ℕ) (hi : i < l.length) :
    ETPublicInputs.getScalarAt ((l.map Bn256Scalar.toBytes).flatten) i =
      some (.ok (l.getD i Bn256Scalar.zeroS)) := by
  unfold ETPublicInputs.getScalarAt
  rw [if_pos (by rw [flatten_map_toBytes_length]; omega), chunkAt_flatten_map l i hi,
    Bn256Scalar.fromBytes_toBytes]

lemma getScalars_of_ok (bytes : List ℕ) (f : ℕ → Bn256Scalar) (idxs : List ℕ)
    (h : ∀ i ∈ idxs, ETPublicInputs.getScalarAt bytes i = some (.ok (f i))) :
    getScalars bytes idxs = some (.ok (idxs.map f)) := by
  induction idxs with
  | nil => rfl
  | cons i rest ih =>
    simp only [getScalars, h i (by simp), ih (fun j hj => h j (by simp [hj])), List.map_cons]

lemma toBytes_eq_flatten (x : ETPublicInputs) :
    x.toBytes = ((x.participants ++ x.scores ++ [x.domain, x.opinionHash]).map
      Bn256Scalar.toBytes).flatten := by
  simp [ETPublicInputs.toBytes, List.map_append, List.flatten_append]

lemma map_range_getD (l : List Bn256Scalar) (P : ℕ) (hP : l.length = P) :
    (List.range P).map (fun i => l.getD i Bn256Scalar.zeroS) = l := by
  subst hP
  refine List.ext_get (by simp) ?_
  intro n h1 h2
  simp only [List.get_eq_getElem, List.getElem_map, List.getElem_range]
  exact List.getD_eq_getElem l _ (by simpa using h2)

lemma etpi_toBytes_length (x : ETPublicInputs) (P : ℕ) (hP : x.participants.length = P)
    (hs : x.scores.length = P) : x.toBytes.length = (2 * P + 2) * 32 := by
  rw [toBytes_eq_flatten, flatten_map_toBytes_length]
  simp [hP, hs]
  ring

/-- Claim C6: serialization of an `ETPublicInputs` with `P` participants
and `P` scores is exactly `(2P+2)*32` bytes long, and deserializing it
with participant count `P` succeeds with a field-wise equal value. -/
theorem etpi_roundtrip (x : ETPublicInputs) (P : ℕ) (hP : x.participants.length = P)
    (hs : x.scores.length = P) :
    x.toBytes.length = (2 * P + 2) * 32 ∧
    ETPublicInputs.fromBytes x.toBytes P = some (.ok x) := by
  have hlen := etpi_toBytes_length x P hP hs
  refine ⟨hlen, ?_⟩
  have hA : (x.participants ++ x.scores).length = 2 * P := by
    simp [hP, hs]
    omega
  have hall : (x.participants ++ x.scores ++ [x.domain, x.opinionHash]).length = 2 * P + 2 := by
    simp only [List.length_append, hA]
    rfl
  have hAt : ∀ i < 2 * P + 2, ETPublicInputs.getScalarAt x.toBytes i =
      some (.ok ((x.participants ++ x.scores ++ [x.domain, x.opinionHash]).getD i
        Bn256Scalar.zeroS)) := by
    intro i hi
    rw [toBytes_eq_flatten]
    exact getScalarAt_flatten_map _ i (by omega)
  have hp : getScalars x.toBytes (List.range P) = some (.ok x.participants) := by
    rw [getScalars_of_ok x.toBytes
      (fun i => (x.participants ++ x.scores ++ [x.domain, x.opinionHash]).getD i
        Bn256Scalar.zeroS)
      (List.range P) (fun i hi => hAt i (by simp at hi; omega))]
    congr 1
    congr 1
    have hcongr : ∀ i ∈ List.range P,
        (x.participants ++ x.scores ++ [x.domain, x.opinionHash]).getD i Bn256Scalar.zeroS =
        x.participants.getD i Bn256Scalar.zeroS := by
      intro i hi
      rw [List.mem_range] at hi
      rw [List.getD_append _ _ _ _ (by omega), List.getD_append _ _ _ _ (by omega)]
    rw [List.map_congr_left hcongr, map_range_getD x.participants P hP]
  have hscores : getScalars x.toBytes (List.range' P P) = some (.ok x.scores) := by
    rw [getScalars_of_ok x.toBytes
      (fun i => (x.participants ++ x.scores ++ [x.domain, x.opinionHash]).getD i
        Bn256Scalar.zeroS)
      (List.range' P P) (fun i hi => hAt i (by rw [List.mem_range'_1] at hi; omega))]
    congr 1
    congr 1
    refine List.ext_get (by simp [hs]) ?_
    intro n h1 h2
    simp only [List.get_eq_getElem, List.getElem_map, List.getElem_range'_1]
    have hn : n < P := by simpa [hs] using h2
    rw [List.getD_append _ _ _ _ (by omega), List.getD_append_right _ _ _ _ (by omega), hP]
    have hidx : P + n - P = n := by omega
    rw [hidx]
    exact List.getD_eq_getElem x.scores _ (by omega)
  have hdom : ETPublicInputs.getScalarAt x.toBytes (2 * P) = some (.ok x.domain) := by
    rw [hAt (2 * P) (by omega)]
    congr 2
    rw [List.getD_append_right _ _ _ _ (by omega)]
    simp [hA]
  have hoh : ETPublicInputs.getScalarAt x.toBytes (2 * P + 1) = some (.ok x.opinionHash) := by
    rw [hAt (2 * P + 1) (by omega)]
    congr 2
    rw [List.getD_append_right _ _ _ _ (by omega)]
    simp [hA]
  unfold ETPublicInputs.fromBytes
  rw [if_neg (by omega), hp, hscores, hdom, hoh]

/-- Claim C6 witness: the round-trip at a concrete one-participant value. -/
theorem etpi_roundtrip_witness :
    xConcrete.toBytes.length = (2 * 1 + 2) * 32 ∧
    ETPublicInputs.fromBytes xConcrete.toBytes 1 = some (.ok xConcrete) :=
  etpi_roundtrip xConcrete 1 rfl rfl

lemma chunkAt_length (bytes : List ℕ) (i : ℕ) (h : 32 * i + 32 ≤ bytes.length) :
    (chunkAt bytes i).length = 32 := by
  simp only [chunkAt, List.length_take, List.length_drop]
  omega

lemma getScalarAt_isSome (bytes : List ℕ) (i : ℕ) (h : 32 * i + 32 ≤ bytes.length) :
    ETPublicInputs.getScalarAt bytes i ≠ none := by
  unfold ETPublicInputs.getScalarAt
  rw [if_pos h]
  cases Bn256Scalar.fromBytes (chunkAt bytes i) <;> simp

lemma fromBytes_eq_none_iff (bs : List ℕ) :
    Bn256Scalar.fromBytes bs = none ↔ ¬(bs.length = 32 ∧ bytesToNatLE bs < qBn) := by
  unfold Bn256Scalar.fromBytes
  split
  · rename_i hcond
    simp [hcond]
  · rename_i hcond
    simp [hcond]

lemma getScalarAt_error_iff (bytes : List ℕ) (i : ℕ) (h : 32 * i + 32 ≤ bytes.length) :
    (∃ e, ETPublicInputs.getScalarAt bytes i = some (.error e)) ↔ ¬ chunkOK bytes i := by
  unfold ETPublicInputs.getScalarAt
  rw [if_pos h]
  cases hf : Bn256Scalar.fromBytes (chunkAt bytes i) with
  | none =>
    have hnOK : ¬ chunkOK bytes i := by
      intro hOK
      exact (fromBytes_eq_none_iff (chunkAt bytes i)).mp hf
        ⟨chunkAt_length bytes i h, hOK⟩
    constructor
    · intro _
      exact hnOK
    · intro _
      exact ⟨_, rfl⟩
  | some s =>
    simp only [reduceCtorEq, Option.some.injEq, exists_const, false_iff, not_not]
    unfold Bn256Scalar.fromBytes at hf
    by_cases hcond : (chunkAt bytes i).length = 32 ∧ bytesToNatLE (chunkAt bytes i) < qBn
    · exact hcond.2
    · rw [dif_neg hcond] at hf
      exact absurd hf (by simp)

lemma getScalars_spec (bytes : List ℕ) (idxs : List ℕ)
    (h : ∀ i ∈ idxs, 32 * i + 32 ≤ bytes.length) :
    ∃ r, getScalars bytes idxs = some r ∧
      ((∃ e, r = Except.error e) ↔ ∃ i ∈ idxs, ¬ chunkOK bytes i) := by
  induction idxs with
  | nil => exact ⟨.ok [], rfl, by simp⟩
  | cons i rest ih =>
    have hi := h i (by simp)
    cases hg : ETPublicInputs.getScalarAt bytes i with
    | none => exact absurd hg (getScalarAt_isSome bytes i hi)
    | some r0 =>
      cases r0 with
      | error e =>
        refine ⟨.error e, by simp only [getScalars, hg], ?_⟩
        have hbad : ¬ chunkOK bytes i :=
          (getScalarAt_error_iff bytes i hi).mp ⟨e, hg⟩
        simp only [Except.error.injEq, exists_eq']
        exact iff_of_true trivial ⟨i, by simp, hbad⟩
      | ok s =>
        have hOK : chunkOK bytes i := by
          by_contra hcon
          obtain ⟨e, he⟩ := (getScalarAt_error_iff bytes i hi).mpr hcon
          rw [hg] at he
          exact absurd he (by simp)
        obtain ⟨r1, hr1, hiff1⟩ := ih (fun j hj => h j (by simp [hj]))
        cases r1 with
        | error e =>
          refine ⟨.error e, by simp only [getScalars, hg, hr1], ?_⟩
          simp only [Except.error.injEq, exists_eq']
          refine iff_of_true trivial ?_
          obtain ⟨j, hj, hbad⟩ := hiff1.mp ⟨e, rfl⟩
          exact ⟨j, by simp [hj], hbad⟩
        | ok ss =>
          refine ⟨.ok (s :: ss), by simp only [getScalars, hg, hr1], ?_⟩
          simp only [reduceCtorEq, exists_const, false_iff, not_exists]
          intro j hj
          obtain ⟨hjmem, hbad⟩ := hj
          rcases List.mem_cons.mp hjmem with hje | hjr
          · subst hje
            exact hbad hOK
          · obtain ⟨e, he⟩ := hiff1.mpr ⟨j, hjr, hbad⟩
            exact absurd he (by simp)

/-- Claim C7: for every byte buffer and participant count,
`ETPublicInputs::from_bytes` returns (never panics), and it returns a
parsing error exactly when the length differs from `(2P+2)*32` or some
32-byte chunk among the `2P+2` decoded ones is not a canonical field
encoding; otherwise it succeeds. -/
theorem etpi_from_bytes_error_characterization (bytes : List ℕ) (P : ℕ) :
    ∃ r, ETPublicInputs.fromBytes bytes P = some r ∧
      ((∃ e, r = Except.error e) ↔
        (bytes.length ≠ (2 * P + 2) * 32 ∨ ∃ i, i < 2 * P + 2 ∧ ¬ chunkOK bytes i)) := by
  by_cases hlen : bytes.length = (2 * P + 2) * 32
  case neg =>
    refine ⟨.error "Invalid bytes length.", ?_, ?_⟩
    · unfold ETPublicInputs.fromBytes
      rw [if_pos hlen]
    · simp only [Except.error.injEq, exists_eq']
      exact iff_of_true trivial (Or.inl hlen)
  case pos =>
    have hin : ∀ i, i < 2 * P + 2 → 32 * i + 32 ≤ bytes.length := by
      intro i hi
      rw [hlen]
      omega
    obtain ⟨r1, hr1, hiff1⟩ := getScalars_spec bytes (List.range P)
      (fun i hi => hin i (by rw [List.mem_range] at hi; omega))
    obtain ⟨r2, hr2, hiff2⟩ := getScalars_spec bytes (List.range' P P)
      (fun i hi => hin i (by rw [List.mem_range'_1] at hi; omega))
    have hbig : (∃ i, i < 2 * P + 2 ∧ ¬ chunkOK bytes i) ↔
        ((∃ i ∈ List.range P, ¬ chunkOK bytes i) ∨
          (∃ i ∈ List.range' P P, ¬ chunkOK bytes i) ∨
          ¬ chunkOK bytes (2 * P) ∨ ¬ chunkOK bytes (2 * P + 1)) := by
      constructor
      · rintro ⟨i, hi, hbad⟩
        by_cases h1 : i < P
        · exact Or.inl ⟨i, List.mem_range.mpr h1, hbad⟩
        · by_cases h2 : i < 2 * P
          · exact Or.inr (Or.inl ⟨i, List.mem_range'_1.mpr ⟨by omega, by omega⟩, hbad⟩)
          · rcases (by omega : i = 2 * P ∨ i = 2 * P + 1) with h3 | h3
            · subst h3
              exact Or.inr (Or.inr (Or.inl hbad))
            · subst h3
              exact Or.inr (Or.inr (Or.inr hbad))
      · rintro (⟨i, hi, hbad⟩ | ⟨i, hi, hbad⟩ | hbad | hbad)
        · exact ⟨i, by rw [List.mem_range] at hi; omega, hbad⟩
        · exact ⟨i, by rw [List.mem_range'_1] at hi; omega, hbad⟩
        · exact ⟨2 * P, by omega, hbad⟩
        · exact ⟨2 * P + 1, by omega, hbad⟩
    unfold ETPublicInputs.fromBytes
    rw [if_neg (by omega), hr1]
    cases r1 with
    | error e1 =>
      refine ⟨.error e1, rfl, ?_⟩
      simp only [Except.error.injEq, exists_eq']
      exact iff_of_true trivial (Or.inr (hbig.mpr (Or.inl (hiff1.mp ⟨e1, rfl⟩))))
    | ok ps =>
      have hok1 : ¬ ∃ i ∈ List.range P, ¬ chunkOK bytes i := by
        intro hcon
        obtain ⟨e, he⟩ := hiff1.mpr hcon
        exact absurd he (by simp)
      rw [hr2]
      cases r2 with
      | error e2 =>
        refine ⟨.error e2, rfl, ?_⟩
        simp only [Except.error.injEq, exists_eq']
        exact iff_of_true trivial (Or.inr (hbig.mpr (Or.inr (Or.inl (hiff2.mp ⟨e2, rfl⟩)))))
      | ok ss =>
        have hok2 : ¬ ∃ i ∈ List.range' P P, ¬ chunkOK bytes i := by
          intro hcon
          obtain ⟨e, he⟩ := hiff2.mpr hcon
          exact absurd he (by simp)
        cases hg3 : ETPublicInputs.getScalarAt bytes (2 * P) with
        | none => exact absurd hg3 (getScalarAt_isSome bytes (2 * P) (hin _ (by omega)))
        | some r3 =>
          cases r3 with
          | error e3 =>
            refine ⟨.error e3, rfl, ?_⟩
            simp only [Except.error.injEq, exists_eq']
            refine iff_of_true trivial (Or.inr (hbig.mpr (Or.inr (Or.inr (Or.inl ?_)))))
            exact (getScalarAt_error_iff bytes (2 * P) (hin _ (by omega))).mp ⟨e3, hg3⟩
          | ok d =>
            have hok3 : chunkOK bytes (2 * P) := by
              by_contra hcon
              obtain ⟨e, he⟩ :=
                (getScalarAt_error_iff bytes (2 * P) (hin _ (by omega))).mpr hcon
              rw [hg3] at he
              exact absurd he (by simp)
            cases hg4 : ETPublicInputs.getScalarAt bytes (2 * P + 1) with
            | none =>
              exact absurd hg4 (getScalarAt_isSome bytes (2 * P + 1) (hin _ (by omega)))
            | some r4 =>
              cases r4 with
              | error e4 =>
                refine ⟨.error e4, rfl, ?_⟩
                simp only [Except.error.injEq, exists_eq']
                refine iff_of_true trivial (Or.inr (hbig.mpr (Or.inr (Or.inr (Or.inr ?_)))))
                exact (getScalarAt_error_iff bytes (2 * P + 1) (hin _ (by omega))).mp ⟨e4, hg4⟩
              | ok oh =>
                have hok4 : chunkOK bytes (2 * P + 1) := by
                  by_contra hcon
                  obtain ⟨e, he⟩ :=
                    (getScalarAt_error_iff bytes (2 * P + 1) (hin _ (by omega))).mpr hcon
                  rw [hg4] at he
                  exact absurd he (by simp)
                refine ⟨.ok ⟨ps, ss, d, oh⟩, rfl, ?_⟩
                simp only [reduceCtorEq, exists_const, false_iff]
                intro hcon
                rcases hcon with hlen' | hex
                · exact hlen' hlen
                · rcases hbig.mp hex with hx | hx | hx | hx
                  · exact hok1 hx
                  · exact hok2 hx
                  · exact hx hok3
                  · exact hx hok4
